import Mathlib

/-!
# Verification of the markdownflows diagram storage, settings and generation layers

This development shallowly embeds the code of `src/services/DiagramStorageService.ts`
(the variant with version history), the `SettingsService` (API-key handling through the
OS `safeStorage` primitive) and the response post-processing of
`OpenAIService.generateMermaidDiagram` from `src/pages/DiagramsPage.tsx`.

Modelling conventions:
* The file system owned by the store is a `Disk` value: the metadata index file,
  one content file per document, one version-index file per document and one content
  file per version.  A JSON index file is `absent`, `corrupt` (present but its read or
  parse fails — both are caught by the service and treated as empty) or `content`.
  A raw text file is `absent`, `unreadable` (present but reading it throws an I/O
  error) or `content`.
* `Date.now()` and `generateId()` are nondeterministic in the source; operations take
  the produced timestamp and identifier as explicit arguments (an oracle).
* JavaScript objects used as string-keyed records are ordered association lists:
  assignment updates an existing key in place or appends a fresh one, `delete`
  removes the key, and `Object.entries` enumerates in that order.
* `Array.prototype.sort` is stable (ECMA-262); it is modelled by a stable insertion
  sort on the comparator key.
* Thrown exceptions are modelled by `Except`/error components; `"Diagram not found"`
  style throws are `StoreErr.notFound`, propagated file-system errors are
  `StoreErr.ioError`.
-/

/-- State of a raw text file on disk: missing, present but failing to read,
or present with the given content. -/
inductive FileState
| absent
| unreadable
| content (s : String)
deriving DecidableEq

/-- State of a JSON index file on disk.  `corrupt` covers both a read error and a
parse error: the service catches either and falls back to an empty index. -/
inductive JsonFile (A : Type)
| absent
| corrupt
| content (val : A)
deriving DecidableEq

/-- Errors escaping a storage operation: a "not found" throw or a propagated
file-system error. -/
inductive StoreErr
| notFound
| ioError
deriving DecidableEq

/-- Association-list lookup: the value stored at key `k`, as in `record[k]`. -/
def alistLookup {κ α : Type} [DecidableEq κ] (k : κ) : List (κ × α) → Option α
| [] => none
| (k', v) :: rest => if k' = k then some v else alistLookup k rest

/-- Association-list assignment `record[k] = v`: updates an existing entry in place,
otherwise appends the new entry (JavaScript object insertion order). -/
def alistSet {κ α : Type} [DecidableEq κ] (k : κ) (v : α) : List (κ × α) → List (κ × α)
| [] => [(k, v)]
| (k', v') :: rest => if k' = k then (k, v) :: rest else (k', v') :: alistSet k v rest

/-- Association-list removal `delete record[k]`.  Keys of a JavaScript object are
unique, so removing every occurrence coincides with removing the one entry. -/
def alistRemove {κ α : Type} [DecidableEq κ] (k : κ) : List (κ × α) → List (κ × α)
| [] => []
| (k', v) :: rest => if k' = k then alistRemove k rest else (k', v) :: alistRemove k rest

/-- Stable insertion of `x` into a list sorted by `key` descending: `x` is placed
before the first element whose key is `≤ key x`, so among equal keys the earlier
element of the original list stays first (JavaScript sort stability). -/
def insertByDesc {α : Type} (key : α → Nat) (x : α) : List α → List α
| [] => [x]
| y :: ys => if key y ≤ key x then x :: y :: ys else y :: insertByDesc key x ys

/-- Stable sort by `key` descending, modelling
`arr.sort((a, b) => key(b) - key(a))`. -/
def sortByDesc {α : Type} (key : α → Nat) : List α → List α
| [] => []
| x :: xs => insertByDesc key x (sortByDesc key xs)

/-- JavaScript nullish coalescing `a ?? b` for optional values. -/
def orElseOpt {α : Type} (a b : Option α) : Option α :=
  match a with
  | some x => some x
  | none => b

namespace DiagramStorage

/-- The `DiagramVersion` record of `DiagramStorageService.ts` without its `content`
field — exactly what is persisted in the per-document version index
(`versions/<id>-versions.json`). -/
structure VersionMeta where
  id : String
  diagramId : String
  prompt : Option String
  createdAt : Nat
deriving DecidableEq

/-- The full `DiagramVersion` record: version-index entry joined with the version's
content file. -/
structure DiagramVersion where
  id : String
  diagramId : String
  content : String
  prompt : Option String
  createdAt : Nat
deriving DecidableEq

/-- The `DiagramFile` record without its `content` field — exactly what is persisted
per document in `diagrams/metadata.json`. -/
structure DocMeta where
  id : String
  name : String
  prompt : Option String
  createdAt : Nat
  updatedAt : Nat
deriving DecidableEq

/-- The full `DiagramFile` record: metadata entry joined with the document's content
file. -/
structure DiagramFile where
  id : String
  name : String
  content : String
  prompt : Option String
  createdAt : Nat
  updatedAt : Nat
deriving DecidableEq

/-- The slice of the file system owned by `DiagramStorageService`:
`diagrams/metadata.json`, the `diagrams/<id>.mmd` content files, the
`versions/<id>-versions.json` index files and the `versions/<id>-<versionId>.mmd`
version content files. -/
structure Disk where
  metadataFile : JsonFile (List (String × DocMeta))
  docFile : String → FileState
  versionIndexFile : String → JsonFile (List VersionMeta)
  versionFile : String → String → FileState

/-- Point update of a one-key file map (writing or unlinking `diagrams/<id>.mmd`). -/
def setFile (f : String → FileState) (k : String) (v : FileState) : String → FileState :=
  fun k' => if k' = k then v else f k'

/-- Point update of the per-document version-content file map. -/
def setFile2 (f : String → String → FileState) (k1 k2 : String) (v : FileState) :
    String → String → FileState :=
  fun a b => if a = k1 ∧ b = k2 then v else f a b

/-- Point update of the per-document version-index file map. -/
def setIndex (f : String → JsonFile (List VersionMeta)) (k : String)
    (v : JsonFile (List VersionMeta)) : String → JsonFile (List VersionMeta) :=
  fun k' => if k' = k then v else f k'

/-- Model of `loadMetadata`: returns the parsed metadata index; a missing file, a read error
or a parse error all yield the empty record (the error is caught and logged). -/
def loadMetadata (d : Disk) : List (String × DocMeta) :=
  match d.metadataFile with
  | .content m => m
  | _ => []

/-- Model of `saveMetadata`: overwrites `diagrams/metadata.json` with the given record. -/
def saveMetadata (d : Disk) (m : List (String × DocMeta)) : Disk :=
  { d with metadataFile := .content m }

/-- Model of `loadVersionsMetadata`: returns the parsed version index of a document; a missing
file, a read error or a parse error all yield the empty list. -/
def loadVersionsMetadata (d : Disk) (diagramId : String) : List VersionMeta :=
  match d.versionIndexFile diagramId with
  | .content vs => vs
  | _ => []

/-- Model of `saveVersionsMetadata`: overwrites `versions/<id>-versions.json`. -/
def saveVersionsMetadata (d : Disk) (diagramId : String) (vs : List VersionMeta) : Disk :=
  { d with versionIndexFile := setIndex d.versionIndexFile diagramId (.content vs) }

/-- Model of `createVersion(diagramId, content, prompt)` with the generated version id and
`Date.now()` passed explicitly: writes the version content file, then appends the
new version entry to the version index. -/
def createVersion (d : Disk) (diagramId content : String) (prompt : Option String)
    (versionId : String) (now : Nat) : Disk × DiagramVersion :=
  let d1 : Disk :=
    { d with versionFile := setFile2 d.versionFile diagramId versionId (.content content) }
  let versions := loadVersionsMetadata d1 diagramId
  let newVersion : VersionMeta :=
    { id := versionId, diagramId := diagramId, prompt := prompt, createdAt := now }
  let d2 := saveVersionsMetadata d1 diagramId (versions ++ [newVersion])
  (d2, { id := versionId, diagramId := diagramId, content := content, prompt := prompt,
         createdAt := now })

/-- The document materialized by joining a metadata entry with its content file. -/
def mkDocFile (id : String) (meta : DocMeta) (content : String) : DiagramFile :=
  { id := id, name := meta.name, content := content, prompt := meta.prompt,
    createdAt := meta.createdAt, updatedAt := meta.updatedAt }

/-- The version materialized by joining a version-index entry with its content file
(the `{...meta, content}` spread). -/
def mkVersion (meta : VersionMeta) (content : String) : DiagramVersion :=
  { id := meta.id, diagramId := meta.diagramId, content := content,
    prompt := meta.prompt, createdAt := meta.createdAt }

/-- Model of `getById(id)`: `null` when the metadata entry or the content file is missing;
a content-file read error propagates. -/
def getById (d : Disk) (id : String) : Except StoreErr (Option DiagramFile) :=
  match alistLookup id (loadMetadata d) with
  | none => .ok none
  | some meta =>
    match d.docFile id with
    | .absent => .ok none
    | .unreadable => .error .ioError
    | .content c => .ok (some (mkDocFile id meta c))

/-- The materialization loop of `listVersions`: walk the version index in order,
skip entries whose content file is missing, abort with an I/O error when a content
file fails to read. -/
def readVersions (d : Disk) (diagramId : String) :
    List VersionMeta → Except StoreErr (List DiagramVersion)
| [] => .ok []
| meta :: rest =>
  match d.versionFile diagramId meta.id with
  | .absent => readVersions d diagramId rest
  | .unreadable => .error .ioError
  | .content c =>
    match readVersions d diagramId rest with
    | .error e => .error e
    | .ok vs => .ok (mkVersion meta c :: vs)

/-- Model of `listVersions(diagramId)`: materialized versions sorted by `createdAt`
descending (newest first). -/
def listVersions (d : Disk) (diagramId : String) : Except StoreErr (List DiagramVersion) :=
  match readVersions d diagramId (loadVersionsMetadata d diagramId) with
  | .error e => .error e
  | .ok vs => .ok (sortByDesc (fun v => v.createdAt) vs)

/-- Model of `getVersion(diagramId, versionId)`: `null` when no matching index entry or no
content file exists; a content-file read error propagates. -/
def getVersion (d : Disk) (diagramId versionId : String) :
    Except StoreErr (Option DiagramVersion) :=
  match (loadVersionsMetadata d diagramId).find? (fun v => v.id == versionId) with
  | none => .ok none
  | some meta =>
    match d.versionFile diagramId versionId with
    | .absent => .ok none
    | .unreadable => .error .ioError
    | .content c => .ok (some (mkVersion meta c))

/-- The materialization loop of `list`: walk the metadata entries in record order,
skip entries whose content file is missing, abort with an I/O error when a content
file fails to read. -/
def readDiagrams (d : Disk) :
    List (String × DocMeta) → Except StoreErr (List DiagramFile)
| [] => .ok []
| (id, meta) :: rest =>
  match d.docFile id with
  | .absent => readDiagrams d rest
  | .unreadable => .error .ioError
  | .content c =>
    match readDiagrams d rest with
    | .error e => .error e
    | .ok fs => .ok (mkDocFile id meta c :: fs)

/-- Model of `list()`: materialized documents sorted by `updatedAt` descending. -/
def list (d : Disk) : Except StoreErr (List DiagramFile) :=
  match readDiagrams d (loadMetadata d) with
  | .error e => .error e
  | .ok fs => .ok (sortByDesc (fun f => f.updatedAt) fs)

/-- Model of `create(name, content, prompt)` with the generated id, the generated version id,
and the two `Date.now()` readings passed explicitly: writes the content file, inserts
the metadata entry with `createdAt = updatedAt = now`, then creates the initial
version. -/
def create (d : Disk) (name content : String) (prompt : Option String)
    (id versionId : String) (now vnow : Nat) : Disk × DiagramFile :=
  let d1 : Disk := { d with docFile := setFile d.docFile id (.content content) }
  let meta : DocMeta :=
    { id := id, name := name, prompt := prompt, createdAt := now, updatedAt := now }
  let d2 := saveMetadata d1 (alistSet id meta (loadMetadata d1))
  let d3 := (createVersion d2 id content prompt versionId vnow).1
  (d3, { id := id, name := name, content := content, prompt := prompt,
         createdAt := now, updatedAt := now })

/-- Model of `update(id, content, prompt)`: fails with "not found" when no metadata entry
exists (leaving the disk untouched); otherwise overwrites the content file, creates
a new version from the raw `prompt` argument, and saves metadata with
`prompt ?? meta.prompt` and `updatedAt = now`, `name` and `createdAt` preserved. -/
def update (d : Disk) (id content : String) (prompt : Option String)
    (versionId : String) (now vnow : Nat) : Disk × Except StoreErr DiagramFile :=
  match alistLookup id (loadMetadata d) with
  | none => (d, .error .notFound)
  | some meta =>
    let d1 : Disk := { d with docFile := setFile d.docFile id (.content content) }
    let d2 := (createVersion d1 id content prompt versionId vnow).1
    let newMeta : DocMeta :=
      { meta with prompt := orElseOpt prompt meta.prompt, updatedAt := now }
    let d3 := saveMetadata d2 (alistSet id newMeta (loadMetadata d))
    (d3, .ok { id := id, name := meta.name, content := content,
               prompt := orElseOpt prompt meta.prompt,
               createdAt := meta.createdAt, updatedAt := now })

/-- The per-version unlink loop of `delete`: each version content file named by the
index is existence-checked and removed. -/
def removeVersionFiles (f : String → String → FileState) (diagramId : String)
    (vmetas : List VersionMeta) : String → String → FileState :=
  vmetas.foldl (fun g vm => setFile2 g diagramId vm.id .absent) f

/-- Model of `delete(id)`: fails with "not found" when no metadata entry exists; otherwise
removes the content file, every version content file named by the version index,
the version index file, and finally the metadata entry. -/
def delete (d : Disk) (id : String) : Disk × Except StoreErr Unit :=
  match alistLookup id (loadMetadata d) with
  | none => (d, .error .notFound)
  | some _ =>
    let d1 : Disk := { d with docFile := setFile d.docFile id .absent }
    let vmetas := loadVersionsMetadata d1 id
    let d2 : Disk := { d1 with versionFile := removeVersionFiles d1.versionFile id vmetas }
    let d3 : Disk := { d2 with versionIndexFile := setIndex d2.versionIndexFile id .absent }
    let d4 := saveMetadata d3 (alistRemove id (loadMetadata d))
    (d4, .ok ())

/-- Model of `rename(id, newName)`: fails with "not found" when no metadata entry exists;
otherwise saves the metadata entry with the new name and `updatedAt = now`, then
reads the content file back (with no existence check, so a missing or unreadable
content file propagates an I/O error after the metadata was already saved). -/
def rename (d : Disk) (id newName : String) (now : Nat) :
    Disk × Except StoreErr DiagramFile :=
  match alistLookup id (loadMetadata d) with
  | none => (d, .error .notFound)
  | some meta =>
    let newMeta : DocMeta := { meta with name := newName, updatedAt := now }
    let d1 := saveMetadata d (alistSet id newMeta (loadMetadata d))
    match d1.docFile id with
    | .content c =>
      (d1, .ok { id := id, name := newName, content := c, prompt := meta.prompt,
                 createdAt := meta.createdAt, updatedAt := now })
    | _ => (d1, .error .ioError)

/-- Model of `restoreVersion(diagramId, versionId)`: fetches the version (propagating read
errors, failing with "not found" when absent), then performs
`update(diagramId, version.content, version.prompt)`. -/
def restoreVersion (d : Disk) (diagramId versionId : String)
    (newVersionId : String) (now vnow : Nat) : Disk × Except StoreErr DiagramFile :=
  match getVersion d diagramId versionId with
  | .error e => (d, .error e)
  | .ok none => (d, .error .notFound)
  | .ok (some version) =>
    update d diagramId version.content version.prompt newVersionId now vnow

/-- Postcondition of a fresh `create` (claim C1): the returned document and
`getById` both carry exactly the given name and content with
`createdAt = updatedAt = now`, and `listVersions` yields exactly the one initial
version holding the created content. -/
def createPost (d : Disk) (name content : String) (prompt : Option String)
    (id versionId : String) (now vnow : Nat) : Prop :=
  (create d name content prompt id versionId now vnow).2 =
    { id := id, name := name, content := content, prompt := prompt,
      createdAt := now, updatedAt := now } ∧
  getById (create d name content prompt id versionId now vnow).1 id =
    .ok (some { id := id, name := name, content := content, prompt := prompt,
                createdAt := now, updatedAt := now }) ∧
  listVersions (create d name content prompt id versionId now vnow).1 id =
    .ok [{ id := versionId, diagramId := id, content := content, prompt := prompt,
           createdAt := vnow }]

/-- Postcondition of a successful `update` (claim C2): the call returns the updated
document; `getById` sees the new content under the preserved name, preserved
`createdAt` and fresh `updatedAt`; the stored prompt is replaced only when one was
supplied; the version list is (up to the newest-first reordering) the new version —
holding the new content — on top of the previous version list; and every
previously stored version is still retrieved unchanged. -/
def updatePost (d : Disk) (id content : String) (prompt : Option String)
    (versionId : String) (now vnow : Nat) (meta : DocMeta)
    (vs : List DiagramVersion) : Prop :=
  (update d id content prompt versionId now vnow).2 =
    .ok { id := id, name := meta.name, content := content,
          prompt := orElseOpt prompt meta.prompt,
          createdAt := meta.createdAt, updatedAt := now } ∧
  getById (update d id content prompt versionId now vnow).1 id =
    .ok (some { id := id, name := meta.name, content := content,
                prompt := orElseOpt prompt meta.prompt,
                createdAt := meta.createdAt, updatedAt := now }) ∧
  alistLookup id (loadMetadata (update d id content prompt versionId now vnow).1) =
    some { meta with prompt := orElseOpt prompt meta.prompt, updatedAt := now } ∧
  (∃ vs', listVersions (update d id content prompt versionId now vnow).1 id = .ok vs' ∧
    vs'.Perm ({ id := versionId, diagramId := id, content := content, prompt := prompt,
                createdAt := vnow } :: vs) ∧
    vs'.length = vs.length + 1) ∧
  (∀ wid : String, wid ≠ versionId →
    getVersion (update d id content prompt versionId now vnow).1 id wid =
      getVersion d id wid)

/-- Postcondition of `restoreVersion` on an existing version `v` (claim C3):
the call is exactly `update(diagramId, v.content, v.prompt)`, and therefore
satisfies the full update postcondition at that content and prompt — in
particular `getById` afterwards returns `v.content`, the version list grows by
exactly one, and no stored version is removed or modified. -/
def restorePost (d : Disk) (diagramId versionId newVersionId : String)
    (now vnow : Nat) (v : DiagramVersion) (meta : DocMeta)
    (vs : List DiagramVersion) : Prop :=
  restoreVersion d diagramId versionId newVersionId now vnow =
    update d diagramId v.content v.prompt newVersionId now vnow ∧
  updatePost d diagramId v.content v.prompt newVersionId now vnow meta vs

/-- Postcondition about prompts after `update` (claim C10): the appended version
entry records exactly the raw `prompt` argument, the document's metadata keeps
`prompt ?? meta.prompt`, and when `update` is called without a prompt on a
document that has one, the two diverge. -/
def updatePromptPost (d : Disk) (id content : String) (prompt : Option String)
    (versionId : String) (now vnow : Nat) (meta : DocMeta) : Prop :=
  loadVersionsMetadata (update d id content prompt versionId now vnow).1 id =
    loadVersionsMetadata d id ++
      [{ id := versionId, diagramId := id, prompt := prompt, createdAt := vnow }] ∧
  alistLookup id (loadMetadata (update d id content prompt versionId now vnow).1) =
    some { meta with prompt := orElseOpt prompt meta.prompt, updatedAt := now } ∧
  (prompt = none → ∀ p, meta.prompt = some p →
    ∃ lastVM dm,
      (loadVersionsMetadata (update d id content prompt versionId now vnow).1 id).getLast? =
        some lastVM ∧
      alistLookup id (loadMetadata (update d id content prompt versionId now vnow).1) =
        some dm ∧
      lastVM.prompt = none ∧ dm.prompt = some p ∧ lastVM.prompt ≠ dm.prompt)

/-- Postcondition of a successful `delete` (claim C4): afterwards `getById` is
absent, `listVersions` is empty, and neither the document's content file, nor any
version content file named by its version index, nor its version index file exists
on disk. -/
def deletePost (d : Disk) (id : String) : Prop :=
  (delete d id).2 = .ok () ∧
  getById (delete d id).1 id = .ok none ∧
  listVersions (delete d id).1 id = .ok [] ∧
  (delete d id).1.docFile id = FileState.absent ∧
  (delete d id).1.versionIndexFile id = JsonFile.absent ∧
  (∀ vm ∈ loadVersionsMetadata d id, (delete d id).1.versionFile id vm.id = FileState.absent)

/-- Postcondition of a successful `rename` (claim C6): the returned document
carries the new name with the content read fresh from disk; the metadata entry
keeps its id, prompt and `createdAt` while taking the new name and
`updatedAt = now`; no content, version-index or version file changes (so no new
version is created and the version list — hence the version count — is
unchanged); and every other metadata entry is untouched. -/
def renamePost (d : Disk) (id newName : String) (now : Nat) (meta : DocMeta)
    (c : String) : Prop :=
  (rename d id newName now).2 =
    .ok { id := id, name := newName, content := c, prompt := meta.prompt,
          createdAt := meta.createdAt, updatedAt := now } ∧
  alistLookup id (loadMetadata (rename d id newName now).1) =
    some { meta with name := newName, updatedAt := now } ∧
  (rename d id newName now).1.docFile = d.docFile ∧
  (rename d id newName now).1.versionIndexFile = d.versionIndexFile ∧
  (rename d id newName now).1.versionFile = d.versionFile ∧
  listVersions (rename d id newName now).1 id = listVersions d id ∧
  getById (rename d id newName now).1 id =
    .ok (some { id := id, name := newName, content := c, prompt := meta.prompt,
                createdAt := meta.createdAt, updatedAt := now }) ∧
  (∀ id' : String, id' ≠ id →
    alistLookup id' (loadMetadata (rename d id newName now).1) =
      alistLookup id' (loadMetadata d))

/-- Postcondition of `list()` (claim C5): it succeeds, its result is ordered by
`updatedAt` descending, it materializes (with full content) every metadata entry
whose content file exists, everything it returns comes from such an entry, and a
metadata entry whose content file is missing contributes nothing — it is silently
skipped rather than surfaced as an error. -/
def listPost (d : Disk) : Prop :=
  ∃ fs, list d = .ok fs ∧
    fs.Pairwise (fun a b => b.updatedAt ≤ a.updatedAt) ∧
    (∀ (idm : String) (meta : DocMeta) (c : String), (idm, meta) ∈ loadMetadata d →
      d.docFile idm = FileState.content c → mkDocFile idm meta c ∈ fs) ∧
    (∀ f ∈ fs, ∃ meta, (f.id, meta) ∈ loadMetadata d ∧
      d.docFile f.id = FileState.content f.content ∧ f = mkDocFile f.id meta f.content) ∧
    (∀ (idm : String) (meta : DocMeta), (idm, meta) ∈ loadMetadata d →
      d.docFile idm = FileState.absent → ∀ f ∈ fs, f.id ≠ idm)

/-- Metadata entry of the sample document used to exercise the theorems on a
concrete store. -/
def sampleMeta : DocMeta :=
  { id := "d1", name := "Doc", prompt := some "make a flow", createdAt := 1,
    updatedAt := 1 }

/-- Version-index entry of the sample document's initial version. -/
def sampleVM : VersionMeta :=
  { id := "v1", diagramId := "d1", prompt := some "make a flow", createdAt := 1 }

/-- A concrete well-formed store holding one document `"d1"` with one version
`"v1"`, both with content `"graph TD"`. -/
def sampleDisk : Disk :=
  { metadataFile := .content [("d1", sampleMeta)],
    docFile := fun k => if k = "d1" then .content "graph TD" else .absent,
    versionIndexFile := fun k => if k = "d1" then .content [sampleVM] else .absent,
    versionFile := fun a b =>
      if a = "d1" ∧ b = "v1" then .content "graph TD" else .absent }

/-- A store whose metadata index file exists but whose read fails: the service
catches the error and treats the index as empty. -/
def corruptMetaDisk : Disk :=
  { metadataFile := .corrupt,
    docFile := fun _ => .content "graph TD",
    versionIndexFile := fun _ => .absent,
    versionFile := fun _ _ => .absent }

end DiagramStorage

namespace SettingsStore

/-- The OS `safeStorage` primitive, external to the repository: an availability
probe, encryption producing the base64 text that is persisted, and decryption from
that base64 text.  Decryption returning `none` models `decryptString` throwing. -/
structure SafeStorage where
  available : Bool
  encryptB64 : String → String
  decryptB64 : String → Option String

/-- The in-memory settings map (mirrored to `settings.json` on every mutation; the
persisted copy always equals the in-memory one, so only the map is modelled). -/
def SettingsMap : Type := List (String × String)

/-- Model of `SettingsService.get(key)`: `this.settings[key] || null` — an empty-string value
is falsy in JavaScript and is returned as `null`. -/
def settingsGet (m : SettingsMap) (key : String) : Option String :=
  match alistLookup key m with
  | some v => if v = "" then none else some v
  | none => none

/-- Model of `SettingsService.set(key, value)`. -/
def settingsSet (m : SettingsMap) (key value : String) : SettingsMap :=
  alistSet key value m

/-- Model of `SettingsService.delete(key)`. -/
def settingsDelete (m : SettingsMap) (key : String) : SettingsMap :=
  alistRemove key m

/-- Model of `setOpenAIApiKey(apiKey)`: when encryption is available, stores the encrypted
base64 text under `openai_api_key_encrypted` and removes the legacy plaintext
`openai_api_key`; otherwise falls back to storing the plaintext. -/
def setOpenAIApiKey (ss : SafeStorage) (m : SettingsMap) (apiKey : String) : SettingsMap :=
  if ss.available then
    settingsDelete (settingsSet m "openai_api_key_encrypted" (ss.encryptB64 apiKey))
      "openai_api_key"
  else
    settingsSet m "openai_api_key" apiKey

/-- Model of `getOpenAIApiKey()`: without an encrypted copy, falls back to the legacy
plaintext key; with one, decrypts when the primitive is available, returning `null`
when it is unavailable or when decryption throws. -/
def getOpenAIApiKey (ss : SafeStorage) (m : SettingsMap) : Option String :=
  match settingsGet m "openai_api_key_encrypted" with
  | none => settingsGet m "openai_api_key"
  | some encryptedKey =>
    if ss.available then
      match ss.decryptB64 encryptedKey with
      | some v => some v
      | none => none
    else none

/-- A concrete stand-in for the OS encryption primitive, used to exercise the
credential-store theorem: reversible, with non-empty ciphertext. -/
def sampleStorage : SafeStorage :=
  { available := true,
    encryptB64 := fun s => "E" ++ s,
    decryptB64 := fun s => some (s.drop 1) }

end SettingsStore

namespace Generation

/-- The structured error of the uniform IPC envelope. -/
structure IPCError where
  message : String
  code : String
deriving DecidableEq

/-- The uniform success/error envelope returned across the command boundary. -/
inductive IPCResponse (α : Type)
| success (data : α)
| failure (error : IPCError)
deriving DecidableEq

/-- JavaScript strings are modelled as character lists in this component, so that
`trim`, `startsWith`, `endsWith` and `slice` stay executable.  `jsTrim` models
`String.prototype.trim()`: whitespace removed from both ends. -/
def jsTrim (s : List Char) : List Char :=
  ((s.dropWhile Char.isWhitespace).reverse.dropWhile Char.isWhitespace).reverse

/-- Model of `s.startsWith(m)`: the first `m.length` characters equal `m`. -/
def startsWithL (m s : List Char) : Bool :=
  decide (s.take m.length = m)

/-- Model of `s.endsWith(m)`: the last `m.length` characters equal `m`. -/
def endsWithL (m s : List Char) : Bool :=
  decide ((s.reverse.take m.length).reverse = m)

/-- The fenced-block marker with language tag, as the characters of
three backticks followed by "mermaid". -/
def fenceMermaid : List Char := "```mermaid".toList

/-- The bare fenced-block marker: three backticks. -/
def fence : List Char := "```".toList

/-- The response clean-up of `generateMermaidDiagram`: trim, strip a leading
fenced-block marker (`slice(10)` after the language-tagged marker, `slice(3)` after
a bare one), strip a trailing marker (`slice(0, -3)`), and trim again. -/
def cleanDiagramContent (content : List Char) : List Char :=
  let c := jsTrim content
  let c1 := if startsWithL fenceMermaid c then c.drop 10
            else if startsWithL fence c then c.drop 3
            else c
  let c2 := if endsWithL fence c1 then c1.take (c1.length - 3) else c1
  jsTrim c2

/-- The outcome of `generateMermaidDiagram` as a function of the provider's raw
message content (`undefined` or a string): an absent or whitespace-only response
throws "Empty diagram content returned", which the surrounding catch converts into
the structured error envelope; otherwise the cleaned text is returned. -/
def generateMermaidDiagramResult (raw : Option (List Char)) : IPCResponse (List Char) :=
  match raw with
  | none =>
    .failure { message := "Empty diagram content returned",
               code := "DIAGRAM_GENERATION_FAILED" }
  | some content =>
    if (jsTrim content).length = 0 then
      .failure { message := "Empty diagram content returned",
                 code := "DIAGRAM_GENERATION_FAILED" }
    else
      .success (cleanDiagramContent content)

end Generation

theorem alistLookup_set_self {κ α : Type} [DecidableEq κ] (k : κ) (v : α)
    (l : List (κ × α)) : alistLookup k (alistSet k v l) = some v := by
  induction l with
  | nil => simp [alistSet, alistLookup]
  | cons p rest ih =>
    by_cases h : p.1 = k
    · simp [alistSet, alistLookup, h]
    · simp [alistSet, alistLookup, h, ih]

theorem alistLookup_set_ne {κ α : Type} [DecidableEq κ] {k k' : κ} (v : α)
    (l : List (κ × α)) (h : k' ≠ k) :
    alistLookup k' (alistSet k v l) = alistLookup k' l := by
  have h' : k ≠ k' := Ne.symm h
  induction l with
  | nil => simp [alistSet, alistLookup, h']
  | cons p rest ih =>
    by_cases hp : p.1 = k
    · subst hp
      simp [alistSet, alistLookup, h']
    · by_cases hp' : p.1 = k'
      · simp [alistSet, alistLookup, hp, hp', h]
      · simp [alistSet, alistLookup, hp, hp', ih]

theorem alistLookup_remove_self {κ α : Type} [DecidableEq κ] (k : κ)
    (l : List (κ × α)) : alistLookup k (alistRemove k l) = none := by
  induction l with
  | nil => simp [alistRemove, alistLookup]
  | cons p rest ih =>
    by_cases h : p.1 = k
    · simpa [alistRemove, alistLookup, h] using ih
    · simpa [alistRemove, alistLookup, h] using ih

theorem alistLookup_remove_ne {κ α : Type} [DecidableEq κ] {k k' : κ}
    (l : List (κ × α)) (h : k' ≠ k) :
    alistLookup k' (alistRemove k l) = alistLookup k' l := by
  induction l with
  | nil => simp [alistRemove, alistLookup]
  | cons p rest ih =>
    by_cases hp : p.1 = k
    · have hne : p.1 ≠ k' := by
        rw [hp]
        exact Ne.symm h
      simp [alistRemove, alistLookup, hp, hne, Ne.symm h, ih]
    · by_cases hp' : p.1 = k'
      · simp [alistRemove, alistLookup, hp, hp', h]
      · simp [alistRemove, alistLookup, hp, hp', ih]

theorem perm_insertByDesc {α : Type} (key : α → Nat) (x : α) (l : List α) :
    (insertByDesc key x l).Perm (x :: l) := by
  induction l with
  | nil => simp [insertByDesc]
  | cons y ys ih =>
    by_cases h : key y ≤ key x
    · simp [insertByDesc, h]
    · simp only [insertByDesc, h, if_false]
      exact (ih.cons y).trans (List.Perm.swap x y ys)

theorem perm_sortByDesc {α : Type} (key : α → Nat) (l : List α) :
    (sortByDesc key l).Perm l := by
  induction l with
  | nil => simp [sortByDesc]
  | cons x xs ih =>
    exact (perm_insertByDesc key x (sortByDesc key xs)).trans (ih.cons x)

theorem mem_sortByDesc {α : Type} (key : α → Nat) (l : List α) (a : α) :
    a ∈ sortByDesc key l ↔ a ∈ l :=
  (perm_sortByDesc key l).mem_iff

theorem length_sortByDesc {α : Type} (key : α → Nat) (l : List α) :
    (sortByDesc key l).length = l.length :=
  (perm_sortByDesc key l).length_eq

theorem pairwise_insertByDesc {α : Type} (key : α → Nat) (x : α) (l : List α)
    (h : l.Pairwise (fun a b => key b ≤ key a)) :
    (insertByDesc key x l).Pairwise (fun a b => key b ≤ key a) := by
  induction l with
  | nil => simp [insertByDesc]
  | cons y ys ih =>
    rcases List.pairwise_cons.mp h with ⟨hy, hys⟩
    by_cases hle : key y ≤ key x
    · simp only [insertByDesc, hle, if_true]
      refine List.pairwise_cons.mpr ⟨?_, h⟩
      intro z hz
      rcases List.mem_cons.mp hz with hz | hz
      · rw [hz]
        exact hle
      · exact le_trans (hy z hz) hle
    · simp only [insertByDesc, hle, if_false]
      refine List.pairwise_cons.mpr ⟨?_, ih hys⟩
      intro z hz
      rcases List.mem_cons.mp ((perm_insertByDesc key x ys).mem_iff.mp hz) with hz | hz
      · rw [hz]
        exact le_of_not_le hle
      · exact hy z hz

theorem pairwise_sortByDesc {α : Type} (key : α → Nat) (l : List α) :
    (sortByDesc key l).Pairwise (fun a b => key b ≤ key a) := by
  induction l with
  | nil => simp [sortByDesc]
  | cons x xs ih => exact pairwise_insertByDesc key x _ ih

theorem perm_snoc {α : Type} (a : α) (l : List α) : (l ++ [a]).Perm (a :: l) :=
  List.perm_append_singleton a l

namespace DiagramStorage

theorem setFile_self (f : String → FileState) (k : String) (v : FileState) :
    setFile f k v k = v := by
  simp [setFile]

theorem setFile_ne (f : String → FileState) {k k' : String} (v : FileState)
    (h : k' ≠ k) : setFile f k v k' = f k' := by
  simp [setFile, h]

theorem setFile2_self (f : String → String → FileState) (k1 k2 : String)
    (v : FileState) : setFile2 f k1 k2 v k1 k2 = v := by
  simp [setFile2]

theorem setFile2_ne (f : String → String → FileState) {k1 k2 a b : String}
    (v : FileState) (h : ¬(a = k1 ∧ b = k2)) : setFile2 f k1 k2 v a b = f a b := by
  simp [setFile2, h]

theorem setIndex_self (f : String → JsonFile (List VersionMeta)) (k : String)
    (v : JsonFile (List VersionMeta)) : setIndex f k v k = v := by
  simp [setIndex]

theorem setIndex_ne (f : String → JsonFile (List VersionMeta)) {k k' : String}
    (v : JsonFile (List VersionMeta)) (h : k' ≠ k) : setIndex f k v k' = f k' := by
  simp [setIndex, h]

/-- Canonical form of a successful `create`: the four file groups it leaves on disk
and the document it returns. -/
theorem create_eq (d : Disk) (name content : String) (prompt : Option String)
    (id versionId : String) (now vnow : Nat) :
    create d name content prompt id versionId now vnow =
      ({ metadataFile := .content (alistSet id
            { id := id, name := name, prompt := prompt, createdAt := now,
              updatedAt := now } (loadMetadata d)),
         docFile := setFile d.docFile id (.content content),
         versionIndexFile := setIndex d.versionIndexFile id
           (.content (loadVersionsMetadata d id ++
             [{ id := versionId, diagramId := id, prompt := prompt, createdAt := vnow }])),
         versionFile := setFile2 d.versionFile id versionId (.content content) },
       { id := id, name := name, content := content, prompt := prompt,
         createdAt := now, updatedAt := now }) := by
  simp [create, createVersion, saveMetadata, saveVersionsMetadata, loadMetadata,
    loadVersionsMetadata]

/-- Canonical form of a successful `update`. -/
theorem update_eq (d : Disk) {id : String} (content : String) (prompt : Option String)
    (versionId : String) (now vnow : Nat) {meta : DocMeta}
    (hmeta : alistLookup id (loadMetadata d) = some meta) :
    update d id content prompt versionId now vnow =
      ({ metadataFile := .content (alistSet id
            { meta with prompt := orElseOpt prompt meta.prompt, updatedAt := now }
            (loadMetadata d)),
         docFile := setFile d.docFile id (.content content),
         versionIndexFile := setIndex d.versionIndexFile id
           (.content (loadVersionsMetadata d id ++
             [{ id := versionId, diagramId := id, prompt := prompt, createdAt := vnow }])),
         versionFile := setFile2 d.versionFile id versionId (.content content) },
       .ok { id := id, name := meta.name, content := content,
             prompt := orElseOpt prompt meta.prompt,
             createdAt := meta.createdAt, updatedAt := now }) := by
  simp only [update]
  rw [hmeta]
  simp [createVersion, saveMetadata, saveVersionsMetadata, loadMetadata,
    loadVersionsMetadata]

/-- Lemma: `update` on an id with no metadata entry fails with "not found" and leaves the
disk untouched. -/
theorem update_notFound (d : Disk) {id : String} (content : String)
    (prompt : Option String) (versionId : String) (now vnow : Nat)
    (hmeta : alistLookup id (loadMetadata d) = none) :
    update d id content prompt versionId now vnow = (d, .error .notFound) := by
  simp [update, hmeta]

/-- Canonical form of a successful `delete`. -/
theorem delete_eq (d : Disk) {id : String} {meta : DocMeta}
    (hmeta : alistLookup id (loadMetadata d) = some meta) :
    delete d id =
      ({ metadataFile := .content (alistRemove id (loadMetadata d)),
         docFile := setFile d.docFile id .absent,
         versionIndexFile := setIndex d.versionIndexFile id .absent,
         versionFile := removeVersionFiles d.versionFile id (loadVersionsMetadata d id) },
       .ok ()) := by
  simp only [delete]
  rw [hmeta]
  simp [saveMetadata, loadMetadata, loadVersionsMetadata]

theorem delete_notFound (d : Disk) {id : String}
    (hmeta : alistLookup id (loadMetadata d) = none) :
    delete d id = (d, .error .notFound) := by
  simp [delete, hmeta]

/-- Canonical form of a successful `rename`: only the metadata index changes. -/
theorem rename_eq (d : Disk) {id : String} (newName : String) (now : Nat)
    {meta : DocMeta} {c : String}
    (hmeta : alistLookup id (loadMetadata d) = some meta)
    (hc : d.docFile id = .content c) :
    rename d id newName now =
      ({ d with metadataFile := .content (alistSet id
            { meta with name := newName, updatedAt := now } (loadMetadata d)) },
       .ok { id := id, name := newName, content := c, prompt := meta.prompt,
             createdAt := meta.createdAt, updatedAt := now }) := by
  simp only [rename]
  rw [hmeta]
  simp [hc, saveMetadata, loadMetadata]

theorem rename_notFound (d : Disk) {id : String} (newName : String) (now : Nat)
    (hmeta : alistLookup id (loadMetadata d) = none) :
    rename d id newName now = (d, .error .notFound) := by
  simp [rename, hmeta]

/-- Lemma: `getById` when the metadata entry and the content file both exist. -/
theorem getById_content (d : Disk) {id : String} {meta : DocMeta} {c : String}
    (hmeta : alistLookup id (loadMetadata d) = some meta)
    (hc : d.docFile id = .content c) :
    getById d id = .ok (some (mkDocFile id meta c)) := by
  simp [getById, hmeta, hc]

theorem getById_noMeta (d : Disk) {id : String}
    (hmeta : alistLookup id (loadMetadata d) = none) :
    getById d id = .ok none := by
  simp [getById, hmeta]

/-- The version-materialization loop only looks at the version content files named
by the index, so it is unchanged by disk mutations that leave those files alone. -/
theorem readVersions_congr (d d' : Disk) (diagramId : String)
    (metas : List VersionMeta)
    (h : ∀ vm ∈ metas, d'.versionFile diagramId vm.id = d.versionFile diagramId vm.id) :
    readVersions d' diagramId metas = readVersions d diagramId metas := by
  induction metas with
  | nil => simp [readVersions]
  | cons meta rest ih =>
    have hm := h meta (List.mem_cons_self meta rest)
    have hr := ih (fun vm hvm => h vm (List.mem_cons_of_mem meta hvm))
    cases hf : d.versionFile diagramId meta.id <;>
      simp [readVersions, hm, hf, hr]

/-- Appending one index entry whose content file is present appends the
materialized version to a successful loop result. -/
theorem readVersions_snoc_ok (d : Disk) (diagramId : String) (vm : VersionMeta)
    (c : String) {metas : List VersionMeta} {vs : List DiagramVersion}
    (h1 : readVersions d diagramId metas = .ok vs)
    (h2 : d.versionFile diagramId vm.id = .content c) :
    readVersions d diagramId (metas ++ [vm]) = .ok (vs ++ [mkVersion vm c]) := by
  induction metas generalizing vs with
  | nil =>
    simp [readVersions] at h1
    subst h1
    simp [readVersions, h2]
  | cons meta rest ih =>
    cases hf : d.versionFile diagramId meta.id with
    | absent =>
      simp only [readVersions, hf] at h1
      simpa [readVersions, hf] using ih h1
    | unreadable =>
      simp [readVersions, hf] at h1
    | content c' =>
      simp only [readVersions, hf] at h1
      cases hr : readVersions d diagramId rest with
      | error e => rw [hr] at h1; simp at h1
      | ok vs' =>
        rw [hr] at h1
        simp at h1
        subst h1
        simp [readVersions, hf, ih hr]

/-- The unlink loop of `delete` never resurrects a file: a version content file
already absent stays absent. -/
theorem removeVersionFiles_preserve_absent (diagramId k : String)
    (l : List VersionMeta) :
    ∀ f : String → String → FileState, f diagramId k = FileState.absent →
      removeVersionFiles f diagramId l diagramId k = FileState.absent := by
  induction l with
  | nil =>
    intro f h
    simpa [removeVersionFiles] using h
  | cons vm rest ih =>
    intro f h
    have hstep : setFile2 f diagramId vm.id .absent diagramId k = FileState.absent := by
      by_cases hk : k = vm.id
      · simp [setFile2, hk]
      · simp [setFile2, hk, h]
    simpa [removeVersionFiles, List.foldl_cons] using
      ih (setFile2 f diagramId vm.id .absent) hstep

/-- The unlink loop of `delete` removes the content file of every version named by
the index. -/
theorem removeVersionFiles_mem (diagramId : String) (l : List VersionMeta)
    {vm : VersionMeta} (hvm : vm ∈ l) :
    ∀ f : String → String → FileState,
      removeVersionFiles f diagramId l diagramId vm.id = FileState.absent := by
  induction l with
  | nil => cases hvm
  | cons x rest ih =>
    intro f
    rcases List.mem_cons.mp hvm with h | h
    · subst h
      have hstep : setFile2 f diagramId vm.id .absent diagramId vm.id = FileState.absent :=
        setFile2_self f diagramId vm.id .absent
      simpa [removeVersionFiles, List.foldl_cons] using
        removeVersionFiles_preserve_absent diagramId vm.id rest
          (setFile2 f diagramId vm.id .absent) hstep
    · simpa [removeVersionFiles, List.foldl_cons] using
        ih h (setFile2 f diagramId x.id .absent)

/-- When no content file named by the metadata entries is unreadable, the
materialization loop of `list` succeeds. -/
theorem readDiagrams_ok (d : Disk) (entries : List (String × DocMeta))
    (h : ∀ p ∈ entries, d.docFile p.1 ≠ FileState.unreadable) :
    ∃ fs, readDiagrams d entries = .ok fs := by
  induction entries with
  | nil => exact ⟨[], rfl⟩
  | cons p rest ih =>
    obtain ⟨fs, hfs⟩ := ih (fun q hq => h q (List.mem_cons_of_mem p hq))
    obtain ⟨id, meta⟩ := p
    cases hf : d.docFile id with
    | absent => exact ⟨fs, by simpa [readDiagrams, hf] using hfs⟩
    | unreadable => exact absurd hf (h (id, meta) (List.mem_cons_self _ _))
    | content c => exact ⟨mkDocFile id meta c :: fs, by simp [readDiagrams, hf, hfs]⟩

/-- Every metadata entry whose content file is present contributes its materialized
document to a successful `list` loop. -/
theorem readDiagrams_complete (d : Disk) (entries : List (String × DocMeta))
    {fs : List DiagramFile} (hok : readDiagrams d entries = .ok fs)
    {idm : String} {meta : DocMeta} {c : String}
    (hmem : (idm, meta) ∈ entries) (hc : d.docFile idm = FileState.content c) :
    mkDocFile idm meta c ∈ fs := by
  induction entries generalizing fs with
  | nil => cases hmem
  | cons p rest ih =>
    obtain ⟨id', m'⟩ := p
    rcases List.mem_cons.mp hmem with h | h
    · have hid : idm = id' := congrArg Prod.fst h
      have hm : meta = m' := congrArg Prod.snd h
      subst hid
      subst hm
      simp only [readDiagrams, hc] at hok
      cases hr : readDiagrams d rest with
      | error e => rw [hr] at hok; simp at hok
      | ok fs' =>
        rw [hr] at hok
        simp at hok
        subst hok
        exact List.mem_cons_self _ _
    · cases hf : d.docFile id' with
      | absent =>
        simp only [readDiagrams, hf] at hok
        exact ih hok h
      | unreadable => simp [readDiagrams, hf] at hok
      | content c' =>
        simp only [readDiagrams, hf] at hok
        cases hr : readDiagrams d rest with
        | error e => rw [hr] at hok; simp at hok
        | ok fs' =>
          rw [hr] at hok
          simp at hok
          subst hok
          exact List.mem_cons_of_mem _ (ih hr h)

/-- Every document produced by the `list` loop comes from a metadata entry whose
content file is present — entries with a missing content file are silently
skipped. -/
theorem readDiagrams_sound (d : Disk) (entries : List (String × DocMeta))
    {fs : List DiagramFile} (hok : readDiagrams d entries = .ok fs)
    {f : DiagramFile} (hmem : f ∈ fs) :
    ∃ meta, (f.id, meta) ∈ entries ∧ d.docFile f.id = FileState.content f.content ∧
      f = mkDocFile f.id meta f.content := by
  induction entries generalizing fs with
  | nil =>
    simp [readDiagrams] at hok
    subst hok
    cases hmem
  | cons p rest ih =>
    obtain ⟨id', m'⟩ := p
    cases hf : d.docFile id' with
    | absent =>
      simp only [readDiagrams, hf] at hok
      obtain ⟨meta, h1, h2, h3⟩ := ih hok hmem
      exact ⟨meta, List.mem_cons_of_mem _ h1, h2, h3⟩
    | unreadable => simp [readDiagrams, hf] at hok
    | content c' =>
      simp only [readDiagrams, hf] at hok
      cases hr : readDiagrams d rest with
      | error e => rw [hr] at hok; simp at hok
      | ok fs' =>
        rw [hr] at hok
        simp at hok
        subst hok
        rcases List.mem_cons.mp hmem with h | h
        · refine ⟨m', ?_, ?_, ?_⟩
          · rw [h]
            exact List.mem_cons_self _ _
          · rw [h]
            simpa [mkDocFile] using hf
          · rw [h]
            rfl
        · obtain ⟨meta, h1, h2, h3⟩ := ih hr h
          exact ⟨meta, List.mem_cons_of_mem _ h1, h2, h3⟩

/-- Finding a version id among index entries is unaffected by appending an entry
with a different id. -/
theorem find?_snoc_ne {metas : List VersionMeta} {vm : VersionMeta} {wid : String}
    (h : vm.id ≠ wid) :
    (metas ++ [vm]).find? (fun v => v.id == wid) =
      metas.find? (fun v => v.id == wid) := by
  rw [List.find?_append]
  cases hf : metas.find? (fun v => v.id == wid) with
  | some m => simp
  | none =>
    have hb : (vm.id == wid) = false := beq_eq_false_iff_ne.mpr h
    simp [List.find?, hb]

end DiagramStorage

namespace DiagramStorage

/-- C1: immediately after a fresh `create(name, content, prompt)` succeeds with
identifier `id`, `getById(id)` returns a document whose content equals the created
content byte-for-byte and whose name equals the given name, and `listVersions(id)`
yields exactly one version whose content equals the created content. -/
theorem create_spec (d : Disk) (name content : String) (prompt : Option String)
    (id versionId : String) (now vnow : Nat)
    (hfresh : loadVersionsMetadata d id = []) :
    createPost d name content prompt id versionId now vnow := by
  unfold createPost
  rw [create_eq]
  refine ⟨rfl, ?_, ?_⟩
  · simp [getById, loadMetadata, alistLookup_set_self, setFile_self, mkDocFile]
  · rw [hfresh]
    simp [listVersions, loadVersionsMetadata, setIndex, readVersions,
      setFile2, mkVersion, sortByDesc, insertByDesc]

/-- Witness for C1: `create_spec` at the sample store with the fresh id `"d2"`. -/
theorem create_spec_witness :
    loadVersionsMetadata sampleDisk "d2" = [] ∧
    createPost sampleDisk "New" "pie" none "d2" "v9" 5 6 :=
  ⟨rfl, create_spec sampleDisk "New" "pie" none "d2" "v9" 5 6 rfl⟩

end DiagramStorage

namespace DiagramStorage

theorem loadMetadata_update (d : Disk) (id content : String) (prompt : Option String)
    (versionId : String) (now vnow : Nat) {meta : DocMeta}
    (hmeta : alistLookup id (loadMetadata d) = some meta) :
    loadMetadata (update d id content prompt versionId now vnow).1 =
      alistSet id { meta with prompt := orElseOpt prompt meta.prompt, updatedAt := now }
        (loadMetadata d) := by
  rw [update_eq d content prompt versionId now vnow hmeta]
  simp [loadMetadata]

theorem docFile_update (d : Disk) (id content : String) (prompt : Option String)
    (versionId : String) (now vnow : Nat) {meta : DocMeta}
    (hmeta : alistLookup id (loadMetadata d) = some meta) :
    (update d id content prompt versionId now vnow).1.docFile =
      setFile d.docFile id (.content content) := by
  rw [update_eq d content prompt versionId now vnow hmeta]

theorem versionFile_update (d : Disk) (id content : String) (prompt : Option String)
    (versionId : String) (now vnow : Nat) {meta : DocMeta}
    (hmeta : alistLookup id (loadMetadata d) = some meta) :
    (update d id content prompt versionId now vnow).1.versionFile =
      setFile2 d.versionFile id versionId (.content content) := by
  rw [update_eq d content prompt versionId now vnow hmeta]

theorem loadVersionsMetadata_update (d : Disk) (id content : String)
    (prompt : Option String) (versionId : String) (now vnow : Nat) {meta : DocMeta}
    (hmeta : alistLookup id (loadMetadata d) = some meta) :
    loadVersionsMetadata (update d id content prompt versionId now vnow).1 id =
      loadVersionsMetadata d id ++
        [{ id := versionId, diagramId := id, prompt := prompt, createdAt := vnow }] := by
  rw [update_eq d content prompt versionId now vnow hmeta]
  simp [loadVersionsMetadata, setIndex]

/-- The full update postcondition holds for every successful `update` whose fresh
version id does not collide with an existing version id. -/
theorem updatePost_holds (d : Disk) (id content : String) (prompt : Option String)
    (versionId : String) (now vnow : Nat) (meta : DocMeta) (vs : List DiagramVersion)
    (hmeta : alistLookup id (loadMetadata d) = some meta)
    (hfresh : ∀ vm ∈ loadVersionsMetadata d id, vm.id ≠ versionId)
    (hpre : listVersions d id = .ok vs) :
    updatePost d id content prompt versionId now vnow meta vs := by
  have hdoc := docFile_update d id content prompt versionId now vnow hmeta
  have hvf := versionFile_update d id content prompt versionId now vnow hmeta
  have hlm := loadMetadata_update d id content prompt versionId now vnow hmeta
  have hlvm := loadVersionsMetadata_update d id content prompt versionId now vnow hmeta
  refine ⟨?_, ?_, ?_, ?_, ?_⟩
  · rw [update_eq d content prompt versionId now vnow hmeta]
  · simp only [getById, hlm, alistLookup_set_self, hdoc, setFile_self]
    simp [mkDocFile]
  · rw [hlm, alistLookup_set_self]
  · cases hr : readVersions d id (loadVersionsMetadata d id) with
    | error e =>
      simp only [listVersions, hr] at hpre
      exact Except.noConfusion hpre
    | ok matOld =>
      have hvs : sortByDesc (fun v => v.createdAt) matOld = vs := by
        simp only [listVersions, hr] at hpre
        exact Except.ok.inj hpre
      have hold : readVersions (update d id content prompt versionId now vnow).1 id
          (loadVersionsMetadata d id) = .ok matOld := by
        have hc : readVersions (update d id content prompt versionId now vnow).1 id
            (loadVersionsMetadata d id) =
            readVersions d id (loadVersionsMetadata d id) := by
          apply readVersions_congr
          intro vm hvm
          rw [hvf]
          exact setFile2_ne _ _ (fun hcj => hfresh vm hvm hcj.2)
        rw [hc, hr]
      have hfile : (update d id content prompt versionId now vnow).1.versionFile id
          versionId = FileState.content content := by
        rw [hvf]
        exact setFile2_self _ _ _ _
      have hsnoc := readVersions_snoc_ok
        (update d id content prompt versionId now vnow).1 id
        { id := versionId, diagramId := id, prompt := prompt, createdAt := vnow }
        content hold hfile
      refine ⟨sortByDesc (fun v => v.createdAt)
        (matOld ++ [{ id := versionId, diagramId := id, content := content,
                      prompt := prompt, createdAt := vnow }]), ?_, ?_, ?_⟩
      · simp only [listVersions, hlvm, hsnoc]
        rfl
      · have p1 := perm_sortByDesc (fun v : DiagramVersion => v.createdAt)
          (matOld ++ [{ id := versionId, diagramId := id, content := content,
                        prompt := prompt, createdAt := vnow }])
        have p2 := perm_snoc
          ({ id := versionId, diagramId := id, content := content,
             prompt := prompt, createdAt := vnow } : DiagramVersion) matOld
        have p3 : matOld.Perm vs :=
          hvs ▸ (perm_sortByDesc (fun v : DiagramVersion => v.createdAt) matOld).symm
        exact p1.trans (p2.trans (p3.cons _))
      · have p1 := perm_sortByDesc (fun v : DiagramVersion => v.createdAt)
          (matOld ++ [{ id := versionId, diagramId := id, content := content,
                        prompt := prompt, createdAt := vnow }])
        have : matOld.length = vs.length := by
          rw [← hvs, length_sortByDesc]
        simp [p1.length_eq, this]
  · intro wid hwid
    simp only [getVersion, hlvm]
    rw [find?_snoc_ne (Ne.symm hwid)]
    cases hfind : (loadVersionsMetadata d id).find? (fun v => v.id == wid) with
    | none => simp [hfind]
    | some m =>
      simp only [hfind]
      rw [hvf, setFile2_ne _ _ (fun hc => hwid hc.2)]

/-- C2: after a successful `update(id, content, prompt)`, `getById(id)` returns the
new content with name and `createdAt` preserved and `updatedAt = now`; the stored
prompt is replaced only when one was supplied; the version list grows by exactly
one entry, which holds the new content, while all prior versions are unchanged and
still retrievable. -/
theorem update_spec (d : Disk) (id content : String) (prompt : Option String)
    (versionId : String) (now vnow : Nat) (meta : DocMeta) (vs : List DiagramVersion)
    (hmeta : alistLookup id (loadMetadata d) = some meta)
    (hfresh : ∀ vm ∈ loadVersionsMetadata d id, vm.id ≠ versionId)
    (hpre : listVersions d id = .ok vs) :
    updatePost d id content prompt versionId now vnow meta vs :=
  updatePost_holds d id content prompt versionId now vnow meta vs hmeta hfresh hpre

/-- Witness for C2: `update_spec` at the sample store. -/
theorem update_spec_witness :
    alistLookup "d1" (loadMetadata sampleDisk) = some sampleMeta ∧
    (∀ vm ∈ loadVersionsMetadata sampleDisk "d1", vm.id ≠ "v2") ∧
    listVersions sampleDisk "d1" =
      .ok [{ id := "v1", diagramId := "d1", content := "graph TD",
             prompt := some "make a flow", createdAt := 1 }] ∧
    updatePost sampleDisk "d1" "graph LR" none "v2" 7 8 sampleMeta
      [{ id := "v1", diagramId := "d1", content := "graph TD",
         prompt := some "make a flow", createdAt := 1 }] :=
  ⟨rfl, by decide, rfl,
   update_spec sampleDisk "d1" "graph LR" none "v2" 7 8 sampleMeta
     [{ id := "v1", diagramId := "d1", content := "graph TD",
        prompt := some "make a flow", createdAt := 1 }] rfl (by decide) rfl⟩

/-- C3: `restoreVersion(id, versionId)` fails with "not found" when the version is
absent, and on an existing version behaves exactly as
`update(id, version.content, version.prompt)`: afterwards `getById` returns the
restored content, the version count grows by exactly one, and no version is
removed or modified. -/
theorem restoreVersion_spec :
    (∀ (d : Disk) (did vid nvid : String) (now vnow : Nat),
      getVersion d did vid = .ok none →
      restoreVersion d did vid nvid now vnow = (d, .error .notFound)) ∧
    (∀ (d : Disk) (did vid nvid : String) (now vnow : Nat) (v : DiagramVersion)
      (meta : DocMeta) (vs : List DiagramVersion),
      getVersion d did vid = .ok (some v) →
      alistLookup did (loadMetadata d) = some meta →
      (∀ vm ∈ loadVersionsMetadata d did, vm.id ≠ nvid) →
      listVersions d did = .ok vs →
      restorePost d did vid nvid now vnow v meta vs) := by
  constructor
  · intro d did vid nvid now vnow h
    simp [restoreVersion, h]
  · intro d did vid nvid now vnow v meta vs hv hmeta hfresh hpre
    exact ⟨by simp [restoreVersion, hv],
      updatePost_holds d did v.content v.prompt nvid now vnow meta vs hmeta hfresh hpre⟩

/-- Witness for C3: both parts of `restoreVersion_spec` at the sample store. -/
theorem restoreVersion_spec_witness :
    (getVersion sampleDisk "d1" "zz" = .ok none ∧
      restoreVersion sampleDisk "d1" "zz" "v2" 7 8 = (sampleDisk, .error .notFound)) ∧
    (getVersion sampleDisk "d1" "v1" =
        .ok (some { id := "v1", diagramId := "d1", content := "graph TD",
                    prompt := some "make a flow", createdAt := 1 }) ∧
      restorePost sampleDisk "d1" "v1" "v2" 7 8
        { id := "v1", diagramId := "d1", content := "graph TD",
          prompt := some "make a flow", createdAt := 1 } sampleMeta
        [{ id := "v1", diagramId := "d1", content := "graph TD",
           prompt := some "make a flow", createdAt := 1 }]) :=
  ⟨⟨rfl, restoreVersion_spec.1 sampleDisk "d1" "zz" "v2" 7 8 rfl⟩,
   ⟨rfl, restoreVersion_spec.2 sampleDisk "d1" "v1" "v2" 7 8
      { id := "v1", diagramId := "d1", content := "graph TD",
        prompt := some "make a flow", createdAt := 1 } sampleMeta
      [{ id := "v1", diagramId := "d1", content := "graph TD",
         prompt := some "make a flow", createdAt := 1 }] rfl rfl (by decide) rfl⟩⟩

/-- C10: the version appended by `update` records exactly the raw `prompt`
argument (absent when the argument was omitted), while the document's metadata
keeps `prompt ?? meta.prompt`; so when `update` is called without a prompt on a
document that has one, the new version's prompt and the document's retained prompt
diverge. -/
theorem update_prompt_spec (d : Disk) (id content : String) (prompt : Option String)
    (versionId : String) (now vnow : Nat) (meta : DocMeta)
    (hmeta : alistLookup id (loadMetadata d) = some meta) :
    updatePromptPost d id content prompt versionId now vnow meta := by
  have hlm := loadMetadata_update d id content prompt versionId now vnow hmeta
  have hlvm := loadVersionsMetadata_update d id content prompt versionId now vnow hmeta
  refine ⟨hlvm, by rw [hlm, alistLookup_set_self], ?_⟩
  intro hnone p hp
  subst hnone
  refine ⟨{ id := versionId, diagramId := id, prompt := none, createdAt := vnow },
    { meta with prompt := orElseOpt none meta.prompt, updatedAt := now },
    ?_, ?_, rfl, ?_, ?_⟩
  · rw [hlvm]
    exact List.getLast?_concat _
  · rw [hlm]
    exact alistLookup_set_self _ _ _
  · simp [orElseOpt, hp]
  · simp [orElseOpt, hp]

/-- Witness for C10: `update_prompt_spec` at the sample store, whose document has a
stored prompt, with the prompt argument omitted. -/
theorem update_prompt_spec_witness :
    alistLookup "d1" (loadMetadata sampleDisk) = some sampleMeta ∧
    updatePromptPost sampleDisk "d1" "graph LR" none "v2" 7 8 sampleMeta :=
  ⟨rfl, update_prompt_spec sampleDisk "d1" "graph LR" none "v2" 7 8 sampleMeta rfl⟩

end DiagramStorage

namespace DiagramStorage

/-- Lemma: `listVersions` does not depend on the metadata index file. -/
theorem listVersions_metadataFile (d : Disk) (m : JsonFile (List (String × DocMeta)))
    (did : String) :
    listVersions { d with metadataFile := m } did = listVersions d did := by
  have hm : loadVersionsMetadata { d with metadataFile := m } did =
      loadVersionsMetadata d did := rfl
  simp only [listVersions, hm]
  rw [readVersions_congr d { d with metadataFile := m } did
    (loadVersionsMetadata d did) (fun vm hvm => rfl)]

/-- C4: after a successful `delete(id)`, `getById(id)` is absent, `listVersions(id)`
is empty, and neither the content file, nor any version content file named by the
version index, nor the version index file remains on disk; `delete` fails with
"not found" when no metadata entry exists. -/
theorem delete_spec :
    (∀ (d : Disk) (id : String) (meta : DocMeta),
      alistLookup id (loadMetadata d) = some meta → deletePost d id) ∧
    (∀ (d : Disk) (id : String),
      alistLookup id (loadMetadata d) = none →
      delete d id = (d, .error .notFound)) := by
  constructor
  · intro d id meta hmeta
    have he := delete_eq d hmeta
    refine ⟨by rw [he], ?_, ?_, ?_, ?_, ?_⟩
    · rw [he]
      simp [getById, loadMetadata, alistLookup_remove_self]
    · rw [he]
      simp [listVersions, loadVersionsMetadata, setIndex, readVersions, sortByDesc]
    · rw [he]
      simp [setFile]
    · rw [he]
      simp [setIndex]
    · intro vm hvm
      rw [he]
      exact removeVersionFiles_mem id (loadVersionsMetadata d id) hvm d.versionFile
  · intro d id hmeta
    exact delete_notFound d hmeta

/-- Witness for C4: both parts of `delete_spec` at the sample store. -/
theorem delete_spec_witness :
    (alistLookup "d1" (loadMetadata sampleDisk) = some sampleMeta ∧
      deletePost sampleDisk "d1") ∧
    (alistLookup "zz" (loadMetadata sampleDisk) = none ∧
      delete sampleDisk "zz" = (sampleDisk, .error .notFound)) :=
  ⟨⟨rfl, delete_spec.1 sampleDisk "d1" sampleMeta rfl⟩,
   ⟨rfl, delete_spec.2 sampleDisk "zz" rfl⟩⟩

/-- C6: `rename(id, newName)` changes only the document's name and `updatedAt`:
content, `createdAt`, prompt and the version count are unchanged, no new version is
created, and the returned document carries the new name with content read fresh
from disk. -/
theorem rename_spec (d : Disk) (id newName : String) (now : Nat) (meta : DocMeta)
    (c : String) (hmeta : alistLookup id (loadMetadata d) = some meta)
    (hc : d.docFile id = FileState.content c) :
    renamePost d id newName now meta c := by
  have he := rename_eq d newName now hmeta hc
  refine ⟨by rw [he], ?_, by rw [he], by rw [he], by rw [he], ?_, ?_, ?_⟩
  · rw [he]
    simp [loadMetadata, alistLookup_set_self]
  · rw [he]
    exact listVersions_metadataFile d _ id
  · rw [he]
    simp [getById, loadMetadata, alistLookup_set_self, hc, mkDocFile]
  · intro id' hne
    rw [he]
    simp [loadMetadata, alistLookup_set_ne _ _ hne]

/-- Witness for C6: `rename_spec` at the sample store. -/
theorem rename_spec_witness :
    alistLookup "d1" (loadMetadata sampleDisk) = some sampleMeta ∧
    sampleDisk.docFile "d1" = FileState.content "graph TD" ∧
    renamePost sampleDisk "d1" "Renamed" 9 sampleMeta "graph TD" :=
  ⟨rfl, rfl, rename_spec sampleDisk "d1" "Renamed" 9 sampleMeta "graph TD" rfl rfl⟩

end DiagramStorage

namespace DiagramStorage

/-- C5: `list()` returns the documents ordered by updated timestamp descending,
includes full content for every metadata entry whose content file exists, and
silently skips every metadata entry whose content file is missing instead of
surfacing an error or partial failure. -/
theorem list_spec (d : Disk)
    (h : ∀ p ∈ loadMetadata d, d.docFile p.1 ≠ FileState.unreadable) :
    listPost d := by
  obtain ⟨fs0, hfs0⟩ := readDiagrams_ok d (loadMetadata d) h
  refine ⟨sortByDesc (fun f => f.updatedAt) fs0, ?_, ?_, ?_, ?_, ?_⟩
  · simp [list, hfs0]
  · exact pairwise_sortByDesc _ _
  · intro idm meta c hmem hc
    exact (mem_sortByDesc _ _ _).mpr (readDiagrams_complete d _ hfs0 hmem hc)
  · intro f hf
    exact readDiagrams_sound d _ hfs0 ((mem_sortByDesc _ _ _).mp hf)
  · intro idm meta hmem habs f hf heq
    obtain ⟨m', h1, h2, h3⟩ := readDiagrams_sound d _ hfs0 ((mem_sortByDesc _ _ _).mp hf)
    rw [heq, habs] at h2
    exact FileState.noConfusion h2

/-- Witness for C5: `list_spec` at the sample store. -/
theorem list_spec_witness :
    (∀ p ∈ loadMetadata sampleDisk, sampleDisk.docFile p.1 ≠ FileState.unreadable) ∧
    listPost sampleDisk :=
  ⟨by decide, list_spec sampleDisk (by decide)⟩

/-- C7 (amended): `getById` returns the document when the metadata entry and a
readable content file exist, an absent result when the metadata entry or the
content file is missing, and never a "not found" error; an unreadable content file
propagates an I/O error, but a read (or parse) failure of the metadata index file
is caught and treated as an empty index, so it yields an absent result rather than
an error. -/
theorem getById_spec :
    (∀ (d : Disk) (id : String), alistLookup id (loadMetadata d) = none →
      getById d id = .ok none) ∧
    (∀ (d : Disk) (id : String) (meta : DocMeta),
      alistLookup id (loadMetadata d) = some meta →
      d.docFile id = FileState.absent → getById d id = .ok none) ∧
    (∀ (d : Disk) (id : String) (meta : DocMeta) (c : String),
      alistLookup id (loadMetadata d) = some meta →
      d.docFile id = FileState.content c →
      getById d id = .ok (some (mkDocFile id meta c))) ∧
    (∀ (d : Disk) (id : String) (meta : DocMeta),
      alistLookup id (loadMetadata d) = some meta →
      d.docFile id = FileState.unreadable → getById d id = .error .ioError) ∧
    (∀ (d : Disk) (id : String), getById d id ≠ .error .notFound) ∧
    (∀ (d : Disk) (id : String), d.metadataFile = JsonFile.corrupt →
      getById d id = .ok none) := by
  refine ⟨?_, ?_, ?_, ?_, ?_, ?_⟩
  · intro d id hm
    simp [getById, hm]
  · intro d id meta hm hc
    simp [getById, hm, hc]
  · intro d id meta c hm hc
    simp [getById, hm, hc]
  · intro d id meta hm hc
    simp [getById, hm, hc]
  · intro d id
    cases hm : alistLookup id (loadMetadata d) with
    | none => simp [getById, hm]
    | some meta => cases hc : d.docFile id <;> simp [getById, hm, hc]
  · intro d id hcor
    simp [getById, loadMetadata, hcor, alistLookup]

/-- Witness for C7 (amended): every part of `getById_spec` at a concrete store. -/
theorem getById_spec_witness :
    (alistLookup "zz" (loadMetadata sampleDisk) = none ∧
      getById sampleDisk "zz" = .ok none) ∧
    (alistLookup "d1" (loadMetadata sampleDisk) = some sampleMeta ∧
      sampleDisk.docFile "d1" = FileState.content "graph TD" ∧
      getById sampleDisk "d1" = .ok (some (mkDocFile "d1" sampleMeta "graph TD"))) ∧
    (corruptMetaDisk.metadataFile = JsonFile.corrupt ∧
      getById corruptMetaDisk "d1" = .ok none) :=
  ⟨⟨rfl, getById_spec.1 sampleDisk "zz" rfl⟩,
   ⟨rfl, rfl, getById_spec.2.2.1 sampleDisk "d1" sampleMeta "graph TD" rfl rfl⟩,
   ⟨rfl, getById_spec.2.2.2.2.2 corruptMetaDisk "d1" rfl⟩⟩

/-- Counterexample for C7 as stated: on `corruptMetaDisk` the metadata index file
exists but its read fails, yet `getById` returns an absent result instead of
propagating the failure — a disk read error is converted into an absent result. -/
theorem getById_read_error_swallowed_cex :
    corruptMetaDisk.metadataFile = JsonFile.corrupt ∧
    corruptMetaDisk.docFile "d1" = FileState.content "graph TD" ∧
    getById corruptMetaDisk "d1" = .ok none ∧
    ∀ e : StoreErr, getById corruptMetaDisk "d1" ≠ .error e := by
  refine ⟨rfl, rfl, rfl, ?_⟩
  intro e h
  exact Except.noConfusion h

end DiagramStorage

namespace SettingsStore

/-- The round-trip postcondition of the credential store (claim C9): with
encryption available, getting after setting returns exactly the stored secret, the
legacy plaintext key is gone from the settings map, and the secret sits (as
produced by the encryption primitive) under the distinct encrypted key. -/
def apiKeyRoundTripPost (ss : SafeStorage) (m : SettingsMap) (s : String) : Prop :=
  getOpenAIApiKey ss (setOpenAIApiKey ss m s) = some s ∧
  alistLookup "openai_api_key" (setOpenAIApiKey ss m s) = none ∧
  alistLookup "openai_api_key_encrypted" (setOpenAIApiKey ss m s) =
    some (ss.encryptB64 s)

/-- C9: when the OS encryption primitive is available (and is a left inverse whose
ciphertext is non-empty, which the OS guarantees), setting the API key and then
getting it returns exactly the secret, and the legacy plaintext settings key is
absent afterward — the secret is stored only under the distinct encrypted key. -/
theorem setget_api_key_spec (ss : SafeStorage) (m : SettingsMap) (s : String)
    (hav : ss.available = true)
    (hinv : ss.decryptB64 (ss.encryptB64 s) = some s)
    (hne : ss.encryptB64 s ≠ "") :
    apiKeyRoundTripPost ss m s := by
  have hkeys : ("openai_api_key" : String) ≠ "openai_api_key_encrypted" := by decide
  have hset : setOpenAIApiKey ss m s =
      settingsDelete (settingsSet m "openai_api_key_encrypted" (ss.encryptB64 s))
        "openai_api_key" := by
    simp [setOpenAIApiKey, hav]
  have henc : alistLookup "openai_api_key_encrypted" (setOpenAIApiKey ss m s) =
      some (ss.encryptB64 s) := by
    rw [hset, settingsDelete, alistLookup_remove_ne _ (Ne.symm hkeys), settingsSet]
    exact alistLookup_set_self _ _ _
  refine ⟨?_, ?_, henc⟩
  · simp [getOpenAIApiKey, settingsGet, henc, hne, hav, hinv]
  · rw [hset, settingsDelete]
    exact alistLookup_remove_self _ _

/-- Witness for C9: `setget_api_key_spec` with the sample primitive, starting from
a settings map that still holds a legacy plaintext key. -/
theorem setget_api_key_spec_witness :
    sampleStorage.available = true ∧
    sampleStorage.decryptB64 (sampleStorage.encryptB64 "sk-test") = some "sk-test" ∧
    sampleStorage.encryptB64 "sk-test" ≠ "" ∧
    apiKeyRoundTripPost sampleStorage [("openai_api_key", "sk-old")] "sk-test" :=
  ⟨rfl, by decide, by decide,
   setget_api_key_spec sampleStorage [("openai_api_key", "sk-old")] "sk-test" rfl
     (by decide) (by decide)⟩

end SettingsStore

namespace Generation

theorem dropWhile_length_le {α : Type} (p : α → Bool) (l : List α) :
    (l.dropWhile p).length ≤ l.length := by
  induction l with
  | nil => simp
  | cons x xs ih =>
    by_cases h : p x
    · rw [List.dropWhile_cons, if_pos h]
      exact le_trans ih (Nat.le_succ _)
    · rw [List.dropWhile_cons, if_neg h]

/-- Lemma: `dropWhile` leaves a list alone when it already leaves its first block alone. -/
theorem dropWhile_append_left (p : Char → Bool) (l r : List Char) (hne : l ≠ [])
    (hl : l.dropWhile p = l) : (l ++ r).dropWhile p = l ++ r := by
  cases l with
  | nil => exact absurd rfl hne
  | cons x xs =>
    by_cases hp : p x
    · exfalso
      rw [List.dropWhile_cons, if_pos hp] at hl
      have hlen := dropWhile_length_le p xs
      rw [hl] at hlen
      simp [List.length_cons] at hlen
    · simp [List.cons_append, List.dropWhile_cons, hp]

/-- Trimming removes a leading newline. -/
theorem jsTrim_cons_nl (body : List Char) : jsTrim ('\n' :: body) = jsTrim body := by
  have h : Char.isWhitespace '\n' = true := by decide
  simp [jsTrim, List.dropWhile_cons, h]

/-- A response wrapped in the language-tagged fenced-block marker is returned with
the leading and trailing markers stripped and the inner text trimmed. -/
theorem clean_wrapped (body : List Char) :
    generateMermaidDiagramResult (some (fenceMermaid ++ '\n' :: (body ++ fence))) =
      .success (jsTrim body) := by
  have hfm1 : fenceMermaid ≠ [] := by decide
  have hfm2 : fenceMermaid.dropWhile Char.isWhitespace = fenceMermaid := by decide
  have hfc1 : fence.reverse ≠ [] := by decide
  have hfc2 : fence.reverse.dropWhile Char.isWhitespace = fence.reverse := by decide
  have hA : jsTrim (fenceMermaid ++ '\n' :: (body ++ fence)) =
      fenceMermaid ++ '\n' :: (body ++ fence) := by
    have h1 : (fenceMermaid ++ '\n' :: (body ++ fence)).dropWhile Char.isWhitespace =
        fenceMermaid ++ '\n' :: (body ++ fence) :=
      dropWhile_append_left _ _ _ hfm1 hfm2
    have h2 : (fenceMermaid ++ '\n' :: (body ++ fence)).reverse =
        fence.reverse ++ (body.reverse ++ ('\n' :: fenceMermaid.reverse)) := by
      simp [List.reverse_append]
    have h3 : ((fenceMermaid ++ '\n' :: (body ++ fence)).reverse).dropWhile
        Char.isWhitespace = (fenceMermaid ++ '\n' :: (body ++ fence)).reverse := by
      rw [h2]
      exact dropWhile_append_left _ _ _ hfc1 hfc2
    simp only [jsTrim]
    rw [h1, h3, List.reverse_reverse]
  have h10 : fenceMermaid.length = 10 := by decide
  have hne : ¬ (jsTrim (fenceMermaid ++ '\n' :: (body ++ fence))).length = 0 := by
    rw [hA]
    simp [List.length_append, List.length_cons, h10]
  have hS : startsWithL fenceMermaid (fenceMermaid ++ '\n' :: (body ++ fence)) = true := by
    simp [startsWithL, List.take_left]
  have hD : (fenceMermaid ++ '\n' :: (body ++ fence)).drop 10 = '\n' :: (body ++ fence) := by
    rw [show (10 : Nat) = fenceMermaid.length from h10.symm, List.drop_left]
  have hE : endsWithL fence ('\n' :: (body ++ fence)) = true := by
    have hrev : ('\n' :: (body ++ fence)).reverse =
        fence.reverse ++ (body.reverse ++ ['\n']) := by
      simp [List.reverse_append]
    have h3 : fence.length = fence.reverse.length := (List.length_reverse fence).symm
    simp only [endsWithL, hrev, h3, List.take_left]
    simp
  have hF : ('\n' :: (body ++ fence)).take (('\n' :: (body ++ fence)).length - 3) =
      '\n' :: body := by
    have hsplit : ('\n' :: (body ++ fence)) = ('\n' :: body) ++ fence := by simp
    have hfc3 : fence.length = 3 := by decide
    have hlen : (('\n' :: body) ++ fence).length - 3 = ('\n' :: body).length := by
      simp [List.length_append, hfc3]
    rw [hsplit, hlen, List.take_left]
  simp only [generateMermaidDiagramResult, hne, if_false]
  simp only [cleanDiagramContent, hA, hS, if_true, hD, hE, hF, jsTrim_cons_nl]

/-- C8: a provider response wrapped in a fenced code-block marker is returned with
the prefix and suffix markers stripped and surrounding whitespace trimmed; an
absent or whitespace-only provider response fails with a structured error carrying
a non-empty message instead of succeeding or throwing past the command boundary. -/
theorem generateMermaid_spec :
    (∀ body : List Char,
      generateMermaidDiagramResult (some (fenceMermaid ++ '\n' :: (body ++ fence))) =
        .success (jsTrim body)) ∧
    (∀ s : List Char, jsTrim s = [] →
      generateMermaidDiagramResult (some s) =
        .failure { message := "Empty diagram content returned",
                   code := "DIAGRAM_GENERATION_FAILED" }) ∧
    generateMermaidDiagramResult none =
      .failure { message := "Empty diagram content returned",
                 code := "DIAGRAM_GENERATION_FAILED" } ∧
    "Empty diagram content returned" ≠ "" := by
  refine ⟨clean_wrapped, ?_, rfl, by decide⟩
  intro s hs
  simp [generateMermaidDiagramResult, hs]

/-- Witness for C8: the wrapped case on a concrete response and the empty case on a
whitespace-only response. -/
theorem generateMermaid_spec_witness :
    generateMermaidDiagramResult
        (some (fenceMermaid ++ '\n' :: ("graph TD".toList ++ fence))) =
      .success (jsTrim "graph TD".toList) ∧
    jsTrim "   ".toList = [] ∧
    generateMermaidDiagramResult (some "   ".toList) =
      .failure { message := "Empty diagram content returned",
                 code := "DIAGRAM_GENERATION_FAILED" } :=
  ⟨generateMermaid_spec.1 "graph TD".toList, by decide,
   generateMermaid_spec.2.1 "   ".toList (by decide)⟩

end Generation
